import Mathlib

/-! Shallow embedding of the core document-processing pipeline of the
onpremise-rag-system repository (src/chunker.py, src/pdf_processor.py,
src/batch_processor.py), together with theorems settling the claims of
its specification.  Python strings are modelled as `List Char`, Python
ints as `Int` (page arithmetic) or `Nat` (lengths, indices). -/

/-- Python strings are modelled as lists of characters. -/
abbrev Str := List Char

/-! ## TextChunker.chunk_text (src/chunker.py, lines 16-27)

```python
chunks = []
start = 0
while start < len(text):
    end = start + self.max_length
    chunk = text[start:end]
    chunks.append(chunk)
    start = end - self.overlap
return chunks
```

`text[start:end]` with `0 <= start` and `end = start + L` is
`(text.drop start).take L`.  The Python loop has no fuel; the `fuel`
argument below only bounds the recursion so that the definition is
total.  `text.length + 1` units of fuel are enough whenever
`overlap < max_length` (lemma `chunkLoop_stable` below shows adding
fuel beyond that does not change the result), and the behaviour of the
start index of the Python loop for arbitrary parameters, including
`overlap >= max_length`, is captured exactly by the integer sequence
`startIter` used for the termination claim. -/
def chunkLoop (L O : Nat) (text : Str) : Nat → Nat → List Str
  | 0, _ => []
  | fuel + 1, start =>
    if start < text.length then
      ((text.drop start).take L) :: chunkLoop L O text fuel (start + L - O)
    else []

/-- TextChunker.chunk_text: run the loop from `start = 0`. -/
def chunk_text (L O : Nat) (text : Str) : List Str :=
  chunkLoop L O text (text.length + 1) 0

/-- The integer value of the Python variable `start` after `n` loop
iterations: `start = 0` initially and `start = end - overlap
= start + max_length - overlap` after each iteration (Python ints,
so it may become negative or stall when `overlap >= max_length`). -/
def startIter (L O : Nat) : Nat → Int
  | 0 => 0
  | n + 1 => startIter L O n + (L : Int) - (O : Int)

/-- Concatenation of produced windows with the first `O` characters
removed from every window after the first (the reconstruction
operation named by claim C3). -/
def reassemble (O : Nat) : List Str → Str
  | [] => []
  | c :: cs => c ++ (cs.map (fun x => x.drop O)).flatten

/-- Two adjacent windows share exactly `O` characters: both are at
least `O` long and the last `O` characters of the first equal the
first `O` characters of the second.  Spec-side definition used to
state claim C2 as written. -/
def sharesExactly (O : Nat) (a b : Str) : Prop :=
  O ≤ a.length ∧ O ≤ b.length ∧ a.drop (a.length - O) = b.take O

/-- Claim C2 as written: windows are the clipped substrings
`[i*(L-O), i*(L-O)+L)` produced while the window start is below the
text length, every character is covered, and every pair of consecutive
windows shares exactly `O` characters except that the final window may
be shorter. -/
def specClaimC2 (L O : Nat) (text : Str) : Prop :=
  (∀ i, i ≤ text.length → (i < (chunk_text L O text).length ↔ i * (L - O) < text.length))
  ∧ (∀ i, i < (chunk_text L O text).length →
      (chunk_text L O text).getD i [] = (text.drop (i * (L - O))).take L)
  ∧ (∀ j, j < text.length → ∃ i, i < (chunk_text L O text).length ∧
      i * (L - O) ≤ j ∧ j < i * (L - O) + L)
  ∧ (∀ i, i ≤ (chunk_text L O text).length → i + 2 ≤ (chunk_text L O text).length →
      i + 2 = (chunk_text L O text).length ∨
        sharesExactly O ((chunk_text L O text).getD i [])
          ((chunk_text L O text).getD (i + 1) []))

/-! ## PDFProcessor (src/pdf_processor.py)

The regular expressions of `PDFConfig` are embedded as explicit
matcher functions with the exact semantics of Python's `re` on the
respective patterns:

* `PAGE_REGEX = (\d+)\s*$` — any match must be a digit run followed
  only by whitespace up to the end of the line, so `re.search`
  (leftmost, greedy `\d+`) matches precisely the maximal digit run
  preceding the trailing whitespace, when non-empty.
* `SECTION_REGEX` — the five alternatives are all anchored with `^`,
  so without `re.MULTILINE` a match can only start at position 0 and
  `search` tries the alternatives there in order, first success wins.
* `DOTS_REGEX = \.{2,}` — `sub` replaces every maximal run of two or
  more dots, scanned left to right, by the replacement string.
-/

/-- Python `\s` / `str.strip()` whitespace, ASCII range. -/
def isPySpace (c : Char) : Bool :=
  c == ' ' || c == '\t' || c == '\n' || c == '\r' || c == '\x0b' || c == '\x0c'

/-- Python `str.strip()`. -/
def pyStrip (l : Str) : Str :=
  ((l.dropWhile isPySpace).reverse.dropWhile isPySpace).reverse

/-- Python `int(...)` on a digit string. -/
def digitsToNat (l : Str) : Nat :=
  l.foldl (fun acc c => acc * 10 + (c.toNat - 48)) 0

/-- `PAGE_REGEX.search(line)`: the group `(\d+)` of the unique
possible match of `(\d+)\s*$`, i.e. the maximal trailing digit run
before the trailing whitespace. -/
def pageSearch (l : Str) : Option Str :=
  let afterWs := l.reverse.dropWhile isPySpace
  let digsRev := afterWs.takeWhile Char.isDigit
  if digsRev.isEmpty then none else some digsRev.reverse

/-- `PAGE_REGEX.sub("", s)`: remove the match of `(\d+)\s*$` (digit
run plus trailing whitespace) when present; at most one match can
exist since every match ends at the end of the string. -/
def pageSub (l : Str) : Str :=
  let afterWs := l.reverse.dropWhile isPySpace
  let digsRev := afterWs.takeWhile Char.isDigit
  if digsRev.isEmpty then l else (afterWs.dropWhile Char.isDigit).reverse

/-- State machine for `DOTS_REGEX.sub(" ", s)`: the state counts the
dots of the current pending run, capped at 2 (0 = no pending dot, 1 =
a single pending dot, kept verbatim, 2 = a run of two or more dots,
replaced by one space when the run ends).  Structural recursion on the
string keeps the definition kernel-reducible. -/
def dotsSubSt : Nat → Str → Str
  | s, [] => if s = 1 then ['.'] else if s = 2 then [' '] else []
  | s, '.' :: rest => dotsSubSt (if s = 0 then 1 else 2) rest
  | s, c :: rest =>
    (if s = 1 then ['.'] else if s = 2 then [' '] else []) ++ (c :: dotsSubSt 0 rest)

/-- `DOTS_REGEX.sub(" ", s)`: replace every maximal run of two or more
dots by a single space. -/
def dotsSub (l : Str) : Str := dotsSubSt 0 l

/-- Matcher for `(?:\.\d+)+` followed by a trailing part matched by
`fin`, with the backtracking of a greedy `+`: more repetitions are
preferred, and on failure of the trailing part the last repetition is
given back.  Returns `(length matched by the repetitions, total
length including the trailing part)`. -/
def dotRepsF (fin : Str → Option Nat) : Nat → Str → Option (Nat × Nat)
  | 0, _ => none
  | fuel + 1, '.' :: r =>
    let ds := r.takeWhile Char.isDigit
    if ds.isEmpty then none
    else
      let r2 := r.dropWhile Char.isDigit
      let rep := 1 + ds.length
      match dotRepsF fin fuel r2 with
      | some (g, n) => some (rep + g, rep + n)
      | none =>
        match fin r2 with
        | some m => some (rep, rep + m)
        | none => none
  | _ + 1, _ => none

/-- Run `dotRepsF` with the string length as fuel.  Every repetition
consumes a dot and at least one digit, so the recursion depth is at
most half the string length and the fuel is never exhausted: the
`fuel = 0` truncation is unreachable. -/
def dotReps (fin : Str → Option Nat) (l : Str) : Option (Nat × Nat) :=
  dotRepsF fin l.length l

/-- Trailing part of pattern 1, a literal `\.`. -/
def p1fin (l : Str) : Option Nat :=
  match l with
  | '.' :: _ => some 1
  | _ => none

/-- Trailing part of pattern 2, `\s+` (greedy; nothing follows it in
the pattern, so it always takes the maximal run). -/
def p2fin (l : Str) : Option Nat :=
  let ws := l.takeWhile isPySpace
  if ws.isEmpty then none else some ws.length

/-- Pattern `^(\d+(?:\.\d+)+)\.` — multi-level id followed by a dot.
The leading `\d+` needs no backtracking: it is followed by `\.`,
which no digit can satisfy. Returns (group 1, match end). -/
def matchP1 (l : Str) : Option (Str × Nat) :=
  let ds := l.takeWhile Char.isDigit
  if ds.isEmpty then none
  else
    match dotReps p1fin (l.drop ds.length) with
    | some (g, n) => some (l.take (ds.length + g), ds.length + n)
    | none => none

/-- Pattern `^(\d+(?:\.\d+)+)\s+` — multi-level id followed by
whitespace. -/
def matchP2 (l : Str) : Option (Str × Nat) :=
  let ds := l.takeWhile Char.isDigit
  if ds.isEmpty then none
  else
    match dotReps p2fin (l.drop ds.length) with
    | some (g, n) => some (l.take (ds.length + g), ds.length + n)
    | none => none

/-- Pattern `^(\d+\.\s+\d+)` — digits, dot, whitespace, digits; the
greedy `\s+` needs no backtracking since `\d` matches no whitespace
character. -/
def matchP3 (l : Str) : Option (Str × Nat) :=
  let ds1 := l.takeWhile Char.isDigit
  if ds1.isEmpty then none
  else
    match l.drop ds1.length with
    | '.' :: r2 =>
      let ws := r2.takeWhile isPySpace
      if ws.isEmpty then none
      else
        let ds2 := (r2.drop ws.length).takeWhile Char.isDigit
        if ds2.isEmpty then none
        else
          let n := ds1.length + 1 + ws.length + ds2.length
          some (l.take n, n)
    | _ => none

/-- Pattern `^(\d+)\.` — single-level id followed by a dot. -/
def matchP4 (l : Str) : Option (Str × Nat) :=
  let ds := l.takeWhile Char.isDigit
  if ds.isEmpty then none
  else
    match l.drop ds.length with
    | '.' :: _ => some (ds, ds.length + 1)
    | _ => none

/-- Pattern `^(\d+)\s+` — single-level id followed by whitespace. -/
def matchP5 (l : Str) : Option (Str × Nat) :=
  let ds := l.takeWhile Char.isDigit
  if ds.isEmpty then none
  else
    let ws := (l.drop ds.length).takeWhile isPySpace
    if ws.isEmpty then none else some (ds, ds.length + ws.length)

/-- `SECTION_REGEX.search(line)`: all alternatives are `^`-anchored,
so the match can only be at position 0; alternatives are tried in
`SECTION_PATTERNS` order and the first success wins.  Returns the
matched group and the match end. -/
def sectionSearch (l : Str) : Option (Str × Nat) :=
  matchP1 l <|> matchP2 l <|> matchP3 l <|> matchP4 l <|> matchP5 l

/-- A parsed TOC line (`section_id`, `section_title`, printed page
number as a Python int). -/
structure TocEntry where
  section_id : Str
  section_title : Str
  page : Int
deriving DecidableEq

/-- PDFProcessor.parse_toc_line (pdf_processor.py lines 52-80):
strip the line; reject empty lines and lines without a trailing page
number or a section-number match; canonicalise the id by removing
spaces (`section_id.replace(" ", "")`); the title is the text after
the section match with the trailing page number removed, dot runs
collapsed to a space, and whitespace stripped at each step. -/
def parse_toc_line (line : Str) : Option TocEntry :=
  let line := pyStrip line
  if line.isEmpty then none
  else
    match pageSearch line with
    | none => none
    | some digs =>
      match sectionSearch line with
      | none => none
      | some (g, e) =>
        let sid := g.filter (fun c => !(c == ' '))
        let t1 := pyStrip (line.drop e)
        let t2 := pyStrip (pageSub t1)
        let t3 := pyStrip (dotsSub t2)
        some ⟨sid, t3, (digitsToNat digs : Int)⟩

/-- Does `pat` occur at the start of the second argument? -/
def hasPrefixSeq : Str → Str → Bool
  | [], _ => true
  | _ :: _, [] => false
  | p :: ps, x :: xs => p == x && hasPrefixSeq ps xs

/-- Python `pat in text`: does `pat` occur contiguously anywhere? -/
def containsSeq (pat : Str) : Str → Bool
  | [] => hasPrefixSeq pat []
  | x :: xs => hasPrefixSeq pat (x :: xs) || containsSeq pat xs

/-- `PDFConfig.TOC_KEYWORD = '목 차'`. -/
def tocKeyword : Str := ['목', ' ', '차']

/-- Index-carrying loop of find_toc_page. -/
def findTocAux : List (Option Str) → Nat → Option Nat
  | [], _ => none
  | p :: rest, i =>
    match p with
    | some t => if !t.isEmpty && containsSeq tocKeyword t then some i
                else findTocAux rest (i + 1)
    | none => findTocAux rest (i + 1)

/-- PDFProcessor.find_toc_page: first page whose (cropped, externally
supplied) text is non-empty and contains the TOC keyword.  A page is
`Option Str`: `none` models `extract_text()` returning `None`, and
`if text and ...` skips both `None` and the empty string. -/
def find_toc_page (pages : List (Option Str)) : Option Nat :=
  findTocAux pages 0

/-- Python `text.split('\n')` (keeps empty pieces). -/
def splitNl : Str → List Str
  | [] => [[]]
  | '\n' :: r => [] :: splitNl r
  | c :: r =>
    match splitNl r with
    | [] => [[c]]
    | h :: t => (c :: h) :: t

/-- `PDFConfig.MAX_TOC_PAGES`. -/
def maxTocPages : Nat := 3

/-- PDFProcessor.extract_toc: scan the pages from the TOC page, at
most `MAX_TOC_PAGES` of them (`range(toc_page_num, min(toc_page_num +
MAX_TOC_PAGES, len(pages)))`), skip pages with no text, and parse
every line of each page. -/
def extract_toc (pages : List (Option Str)) (tocPageNum : Nat) : List TocEntry :=
  ((pages.drop tocPageNum).take maxTocPages).flatMap fun p =>
    match p with
    | none => []
    | some t => if t.isEmpty then [] else (splitNl t).filterMap parse_toc_line

/-- A TOC entry extended with its computed 0-based page range. -/
structure SectionR where
  section_id : Str
  section_title : Str
  page : Int
  start_page : Int
  end_page : Int
deriving DecidableEq

/-- PDFProcessor.build_page_ranges (pdf_processor.py lines 101-122):
`start = page - 1`; if a next entry exists, `end = next_page - 1` when
`next_page - page >= 1` and `end = page - 1` otherwise; the final
entry gets `end = total_pages - 1`.  The Python loop reads only the
current entry and its successor, which the recursion mirrors. -/
def build_page_ranges : List TocEntry → Int → List SectionR
  | [], _ => []
  | [e], total => [⟨e.section_id, e.section_title, e.page, e.page - 1, total - 1⟩]
  | e :: e2 :: rest, total =>
    ⟨e.section_id, e.section_title, e.page, e.page - 1,
      if 1 ≤ e2.page - e.page then e2.page - 1 else e.page - 1⟩
      :: build_page_ranges (e2 :: rest) total

/-- Default TOC entry for `List.getD`. -/
def dfltEntry : TocEntry := ⟨[], [], 0⟩

/-- Default section for `List.getD`. -/
def dfltSection : SectionR := ⟨[], [], 0, 0, 0⟩

/-- Claim C1 as written: `start_page = page - 1`; when a next entry
exists and its printed page is at least one greater, `end_page =
next.page - 2`; when not strictly greater, `end_page` collapses to
`start_page`; the final entry gets `end_page = total_pages - 1`. -/
def specClaimC1 (toc : List TocEntry) (total : Int) : Prop :=
  (build_page_ranges toc total).length = toc.length
  ∧ ∀ i, i < toc.length →
      ((build_page_ranges toc total).getD i dfltSection).start_page
          = (toc.getD i dfltEntry).page - 1
      ∧ (i + 1 < toc.length →
          (1 ≤ (toc.getD (i + 1) dfltEntry).page - (toc.getD i dfltEntry).page →
            ((build_page_ranges toc total).getD i dfltSection).end_page
              = (toc.getD (i + 1) dfltEntry).page - 2)
          ∧ (¬ 1 ≤ (toc.getD (i + 1) dfltEntry).page - (toc.getD i dfltEntry).page →
            ((build_page_ranges toc total).getD i dfltSection).end_page
              = ((build_page_ranges toc total).getD i dfltSection).start_page))
      ∧ (i + 1 = toc.length →
          ((build_page_ranges toc total).getD i dfltSection).end_page = total - 1)

/-- Claim C5 as written: for non-empty TOC lists the output ranges
are contiguous (no gap between a section's `end_page` and the next
section's `start_page`), `start_page` is monotonically non-decreasing
in list order, and the last section's `end_page` is `total - 1`. -/
def specClaimC5 (toc : List TocEntry) (total : Int) : Prop :=
  toc ≠ [] →
    (∀ i, i < toc.length → i + 1 < toc.length →
      ((build_page_ranges toc total).getD (i + 1) dfltSection).start_page
        ≤ ((build_page_ranges toc total).getD i dfltSection).end_page + 1)
    ∧ (∀ i, i < toc.length → i + 1 < toc.length →
      ((build_page_ranges toc total).getD i dfltSection).start_page
        ≤ ((build_page_ranges toc total).getD (i + 1) dfltSection).start_page)
    ∧ ((build_page_ranges toc total).getD (toc.length - 1) dfltSection).end_page
        = total - 1

/-! ## Chunk data model (src/chunker.py)

Python dicts with string keys are modelled as insertion-ordered
association lists; `{**d, k: v}` keeps an existing key in place with
the new value and appends a fresh key at the end, which `setKey`
mirrors. -/

/-- A metadata value: Python int or string. -/
inductive MetaVal where
  | int (i : Int)
  | str (s : Str)
deriving DecidableEq

/-- A RAG chunk record as built by `create_rag_chunks`. -/
structure Chunk where
  id : Str
  section_id : Str
  section_title : Str
  text : Str
  metadata : List (Str × MetaVal)
deriving DecidableEq

/-- Keys of a metadata dict. -/
def keysOf (m : List (Str × MetaVal)) : List Str := m.map (fun p => p.1)

/-- Dict lookup. -/
def lookupV : List (Str × MetaVal) → Str → Option MetaVal
  | [], _ => none
  | (a, b) :: r, k => if a = k then some b else lookupV r k

/-- `{**m, k: v}`: replace the value of an existing key in place, or
append the new key at the end. -/
def setKey : List (Str × MetaVal) → Str → MetaVal → List (Str × MetaVal)
  | [], k, v => [(k, v)]
  | (a, b) :: r, k, v => if a = k then (a, v) :: r else (a, b) :: setKey r k v

/-- Metadata key `"page_start"`. -/
def keyPageStart : Str := ['p', 'a', 'g', 'e', '_', 's', 't', 'a', 'r', 't']

/-- Metadata key `"page_end"`. -/
def keyPageEnd : Str := ['p', 'a', 'g', 'e', '_', 'e', 'n', 'd']

/-- Metadata key `"document_name"`. -/
def keyDocName : Str := ['d', 'o', 'c', 'u', 'm', 'e', 'n', 't', '_', 'n', 'a', 'm', 'e']

/-- Fueled decimal printer; the fuel `n + 1` exceeds the recursion
depth since `n / 10 < n` for `n ≥ 10`, so the truncation branch is
unreachable. -/
def natToDigitsAux : Nat → Nat → Str
  | 0, _ => []
  | fuel + 1, n =>
    if n < 10 then [Char.ofNat (48 + n)]
    else natToDigitsAux fuel (n / 10) ++ [Char.ofNat (48 + n % 10)]

/-- Python `str(i)` for a natural number. -/
def natToDigits (n : Nat) : Str := natToDigitsAux (n + 1) n

/-- A section with its extracted body text (`{**sec, "text": ...}`). -/
structure SectionT where
  section_id : Str
  section_title : Str
  page : Int
  start_page : Int
  end_page : Int
  text : Str
deriving DecidableEq

/-- TextChunker.create_rag_chunks (chunker.py lines 29-47): chunk each
section's text, assign ids `"<section_id>_<index>"` and 1-based
page_start/page_end metadata. -/
def create_rag_chunks (L O : Nat) (sections : List SectionT) : List Chunk :=
  sections.flatMap fun sec =>
    (chunk_text L O sec.text).enum.map fun p =>
      { id := sec.section_id ++ '_' :: natToDigits p.1
        section_id := sec.section_id
        section_title := sec.section_title
        text := p.2
        metadata := [(keyPageStart, MetaVal.int (sec.start_page + 1)),
                     (keyPageEnd, MetaVal.int (sec.end_page + 1))] }

/-- Header piece `"문서: "` of the enriched text. -/
def hdrDoc : Str := ['문', '서', ':', ' ']

/-- Header piece `"섹션: "` of the enriched text. -/
def hdrSec : Str := ['섹', '션', ':', ' ']

/-- Separator `" - "` between section id and title. -/
def sepDash : Str := [' ', '-', ' ']

/-- TextChunker.enrich_with_metadata (chunker.py lines 49-68): prepend
the two-line document/section header and a blank line to the text
(`f"문서: {document_name}\n섹션: {section_id} - {section_title}\n\n{text}"`)
and add `document_name` to the metadata via dict spread. -/
def enrich_with_metadata (chunks : List Chunk) (docName : Str) : List Chunk :=
  chunks.map fun c =>
    { c with
      text := hdrDoc ++ docName ++ ('\n' :: hdrSec) ++ c.section_id ++ sepDash
                ++ c.section_title ++ ('\n' :: '\n' :: c.text)
      metadata := setKey c.metadata keyDocName (MetaVal.str docName) }

/-- One step of building `title_to_ids`: `if title not in d: d[title] =
[]` then `d[title].append(id)` — append the id to the existing entry,
or add a new entry at the end. -/
def appendId : List (Str × List Str) → Str → Str → List (Str × List Str)
  | [], t, x => [(t, [x])]
  | (k, v) :: r, t, x =>
    if k = t then (k, v ++ [x]) :: r else (k, v) :: appendId r t x

/-- The `title_to_ids` dict of check_duplicates, in insertion order. -/
def title_to_ids (chunks : List Chunk) : List (Str × List Str) :=
  chunks.foldl (fun m c => appendId m c.section_title c.section_id) []

/-- Fueled first-occurrence deduplication; fuel `l.length` suffices
since every step consumes the head. -/
def dedupFirstF : Nat → List Str → List Str
  | 0, _ => []
  | _ + 1, [] => []
  | fuel + 1, x :: xs => x :: dedupFirstF fuel (xs.filter (fun y => !(y == x)))

/-- `list(set(ids))` keeps each distinct element once; Python's set
iteration order is unspecified, so the model fixes first-occurrence
order — every claim about the result is membership-based. -/
def dedupFirst (l : List Str) : List Str := dedupFirstF l.length l

/-- The report returned by check_duplicates. -/
structure DupReport where
  duplicates : List (Str × List Str)
  has_duplicates : Bool
  total_chunks : Nat
  unique_titles : Nat
deriving DecidableEq

/-- TextChunker.check_duplicates (chunker.py lines 70-90): group
section_ids by section_title; a title with more than one distinct id
is recorded with its distinct ids; `has_duplicates = bool(duplicates)`,
`total_chunks = len(chunks)`, `unique_titles = len(title_to_ids)`. -/
def check_duplicates (chunks : List Chunk) : DupReport :=
  let m := title_to_ids chunks
  let dups := m.filterMap fun p =>
    let u := dedupFirst p.2
    if 2 ≤ u.length then some (p.1, u) else none
  ⟨dups, !dups.isEmpty, chunks.length, m.length⟩

/-- chunker.extract_korean_from_filename:
`re.sub(r'[^가-힣]', '', filename)` keeps exactly the characters in
the Hangul-syllable range U+AC00 to U+D7A3. -/
def extract_korean (l : Str) : Str :=
  l.filter (fun c => 0xAC00 ≤ c.toNat && c.toNat ≤ 0xD7A3)

/-! ## SectionTextExtractor and the per-document pipeline
(src/pdf_processor.py lines 124-184)

The page-text source is the external collaborator: a document is the
list of its cropped page texts (`Option Str`, `none` when
`extract_text()` yields `None`).  `pdf.pages[p]` raises `IndexError`
for an index outside `[-len, len)`, which the `Except` layer models;
`str(e)` of that error is `"list index out of range"`. -/

/-- Message of `ValueError("목차를 찾을 수 없습니다")` raised by
process_pdf when no TOC page is found. -/
def errNoToc : Str := ['목', '차', '를', ' ', '찾', '을', ' ', '수', ' ',
  '없', '습', '니', '다']

/-- Message of a Python list `IndexError`. -/
def idxErrMsg : Str := ['l', 'i', 's', 't', ' ', 'i', 'n', 'd', 'e', 'x',
  ' ', 'o', 'u', 't', ' ', 'o', 'f', ' ', 'r', 'a', 'n', 'g', 'e']

/-- Python list indexing with an `Int` index: non-negative indices in
range, negative indices wrap once, anything else raises IndexError. -/
def pyListGet (pages : List (Option Str)) (p : Int) : Except Str (Option Str) :=
  if 0 ≤ p ∧ p < (pages.length : Int) then .ok (pages.getD p.toNat none)
  else if -(pages.length : Int) ≤ p ∧ p < 0 then
    .ok (pages.getD (p + pages.length).toNat none)
  else .error idxErrMsg

/-- `range(a, b + 1)` over Python ints. -/
def intRangeIncl (a b : Int) : List Int :=
  (List.range (b + 1 - a).toNat).map (fun k => a + k)

/-- The `raw_texts` accumulation: every page of the range contributes
its text plus a newline; `None` and empty texts contribute nothing
(`if page_text:`). -/
def gatherRaw (pages : List (Option Str)) : List Int → Except Str Str
  | [] => .ok []
  | p :: ps => do
    let pt ← pyListGet pages p
    let rest ← gatherRaw pages ps
    match pt with
    | some t => if t.isEmpty then pure rest else pure (t ++ '\n' :: rest)
    | none => pure rest

/-- One-character class `[\.\s]`. -/
def classDot (l : Str) : Bool :=
  match l with
  | c :: _ => c == '.' || isPySpace c
  | [] => false

/-- Greedy-with-backtracking `\s+` followed by the literal `title`:
try the whitespace run lengths from `j` (the maximal run) down to 1
and return the consumed length of `\s+` plus `title` on the first
success.  When the (stripped) title starts with a non-space character
only the maximal run can succeed, and when the title is empty the
greedy maximal run is taken — exactly Python's backtracking. -/
def wsThenLit (title : Str) (r : Str) : Nat → Option Nat
  | 0 => none
  | j + 1 =>
    if hasPrefixSeq title (r.drop (j + 1)) then some ((j + 1) + title.length)
    else wsThenLit title r j

/-- Match of `re.escape(sid) + r'\s+' + re.escape(title)` at position
`k` of `raw`; returns the match end. -/
def anchorMatchAt (sid title raw : Str) (k : Nat) : Option Nat :=
  let rk := raw.drop k
  if hasPrefixSeq sid rk then
    let r := rk.drop sid.length
    match wsThenLit title r ((r.takeWhile isPySpace).length) with
    | some m => some (k + sid.length + m)
    | none => none
  else none

/-- Leftmost search loop for the anchor pattern. -/
def anchorSearchAux (sid title raw : Str) : Nat → Nat → Option Nat
  | 0, _ => none
  | fuel + 1, k =>
    match anchorMatchAt sid title raw k with
    | some e => some e
    | none => anchorSearchAux sid title raw fuel (k + 1)

/-- `re.search` of the anchor pattern: leftmost match end. -/
def anchorSearch (sid title raw : Str) : Option Nat :=
  anchorSearchAux sid title raw (raw.length + 1) 0

/-- Does `\s*` (any run length from 0 to `j`) followed by the literal
`nid` and one `[\.\s]` character match in `r`?  Only the start of the
whole boundary match is used, so existence over the run length is
enough. -/
def boundTryJ (nid r : Str) : Nat → Bool
  | 0 => hasPrefixSeq nid r && classDot (r.drop nid.length)
  | j + 1 =>
    (hasPrefixSeq nid (r.drop (j + 1)) && classDot ((r.drop (j + 1)).drop nid.length))
      || boundTryJ nid r j

/-- Match of `r'\n\s*' + re.escape(next_id) + r'[\.\s]'` starting at
position `k` of `raw`. -/
def boundMatchAt (nid raw : Str) (k : Nat) : Bool :=
  match raw.drop k with
  | '\n' :: r => boundTryJ nid r ((r.takeWhile isPySpace).length)
  | _ => false

/-- Leftmost search loop for the boundary pattern. -/
def boundSearchAux (nid raw : Str) : Nat → Nat → Option Nat
  | 0, _ => none
  | fuel + 1, k =>
    if boundMatchAt nid raw k then some k
    else boundSearchAux nid raw fuel (k + 1)

/-- `re.search` of the boundary pattern: leftmost match start. -/
def boundSearch (nid raw : Str) : Option Nat :=
  boundSearchAux nid raw (raw.length + 1) 0

/-- PDFProcessor.extract_section_text (pdf_processor.py lines
124-163): for each section, stitch the page texts of
`range(start_page, end_page + 1)`, re-anchor on the section header
(`start_idx = m_start.end() if m_start else 0`), slice up to the next
section's boundary marker when present, and strip the result. -/
def extract_section_text (pages : List (Option Str)) :
    List SectionR → Except Str (List SectionT)
  | [] => .ok []
  | sec :: rest => do
    let raw ← gatherRaw pages (intRangeIncl sec.start_page sec.end_page)
    let startIdx :=
      match anchorSearch sec.section_id sec.section_title raw with
      | some e => e
      | none => 0
    let sliced :=
      match rest with
      | [] => raw.drop startIdx
      | nextSec :: _ =>
        match boundSearch nextSec.section_id (raw.drop startIdx) with
        | some mstart => (raw.drop startIdx).take mstart
        | none => raw.drop startIdx
    let restOut ← extract_section_text pages rest
    pure (⟨sec.section_id, sec.section_title, sec.page,
           sec.start_page, sec.end_page, pyStrip sliced⟩ :: restOut)

/-- PDFProcessor.process_pdf (pdf_processor.py lines 165-184): find
the TOC page (raising `ValueError("목차를 찾을 수 없습니다")` when
there is none), extract the TOC, build the page ranges with
`total_pages = len(pdf.pages)`, and extract the section texts. -/
def process_pdf (pages : List (Option Str)) : Except Str (List SectionT) :=
  match find_toc_page pages with
  | none => .error errNoToc
  | some tpn =>
    extract_section_text pages
      (build_page_ranges (extract_toc pages tpn) (pages.length : Int))

/-! ## BatchPDFProcessor (src/batch_processor.py) -/

/-- A document of the batch: its (base)name and its cropped page
texts as supplied by the external page source. -/
structure PDoc where
  name : Str
  pages : List (Option Str)
deriving DecidableEq

/-- Result dict of process_single_pdf: `status` is `'success'` with
filename, document_name, enriched chunks, and section/chunk counts, or
`'failed'` with filename and error message. -/
inductive SingleResult where
  | ok (filename document_name : Str) (chunks : List Chunk)
      (num_sections num_chunks : Nat)
  | err (filename error : Str)
deriving DecidableEq

/-- `result['status'] == 'success'`. -/
def isOk : SingleResult → Bool
  | .ok _ _ _ _ _ => true
  | .err _ _ => false

/-- The chunks of a successful result, `[]` for a failure. -/
def okChunks : SingleResult → List Chunk
  | .ok _ _ cs _ _ => cs
  | .err _ _ => []

/-- BatchPDFProcessor.process_single_pdf (batch_processor.py lines
50-88): the whole per-document pipeline inside `try`, every exception
caught and turned into a `'failed'` record carrying the filename and
`str(e)`.  The duplicate check is executed only for a console warning
and contributes nothing to the result. -/
def process_single_pdf (L O : Nat) (doc : PDoc) : SingleResult :=
  match process_pdf doc.pages with
  | .error e => .err doc.name e
  | .ok sections =>
    let chunks := create_rag_chunks L O sections
    let docName := extract_korean doc.name
    let enriched := enrich_with_metadata chunks docName
    .ok doc.name docName enriched sections.length enriched.length

/-- Result of process_all: the early `'failed'` dict when no files
were found, otherwise total/success/failure counts, the accumulated
chunks and the per-file results. -/
inductive BatchResult where
  | noFiles
  | done (total_files success_count failed_count total_chunks : Nat)
      (chunks : List Chunk) (results : List SingleResult)
deriving DecidableEq

/-- The per-file results list accumulated by the process_all loop. -/
def batchResults (L O : Nat) (docs : List PDoc) : List SingleResult :=
  docs.map (process_single_pdf L O)

/-- `success_count = sum(1 for r in results if r['status'] == 'success')`. -/
def succCount (rs : List SingleResult) : Nat :=
  (rs.filter isOk).length

/-- `all_chunks`, extended with `result['chunks']` for every
successful result in loop order. -/
def allOkChunks (rs : List SingleResult) : List Chunk :=
  (rs.map okChunks).flatten

/-- BatchPDFProcessor.process_all (batch_processor.py lines 90-135). -/
def process_all (L O : Nat) (docs : List PDoc) : BatchResult :=
  match docs with
  | [] => .noFiles
  | _ :: _ =>
    let results := batchResults L O docs
    let all := allOkChunks results
    .done docs.length (succCount results) (results.length - succCount results)
      all.length all results

/-- Default document for `List.getD`. -/
def dfltDoc : PDoc := ⟨[], []⟩

/-- Default per-file result for `List.getD`. -/
def dfltResult : SingleResult := .err [] []

/-- The page texts of a small synthetic document whose TOC page lists
two sections. -/
def pageToc : Str := ['목', ' ', '차', '\n', '1', ' ', 'A', 'l', 'p', 'h',
  'a', ' ', '2', '\n', '2', ' ', 'B', 'e', 't', 'a', ' ', '3']

/-- Body page of section 1. -/
def pageBody1 : Str := ['1', ' ', 'A', 'l', 'p', 'h', 'a', '\n', 'b', 'o',
  'd', 'y', ' ', 'o', 'n', 'e']

/-- Body page of section 2. -/
def pageBody2 : Str := ['2', ' ', 'B', 'e', 't', 'a', '\n', 'b', 'o', 'd',
  'y', ' ', 't', 'w', 'o']

/-- A document that processes successfully. -/
def docGood : PDoc :=
  ⟨['g', 'o', 'o', 'd', '.', 'p', 'd', 'f'],
   [some pageToc, some pageBody1, some pageBody2]⟩

/-- A document with no TOC page. -/
def docBad : PDoc :=
  ⟨['b', 'a', 'd', '.', 'p', 'd', 'f'], [some ['n', 'o', 'p', 'e']]⟩

/-- Default chunk for `List.getD`. -/
def dfltChunk : Chunk := ⟨[], [], [], [], []⟩

/-! ### Duplicate detection (claim C8) -/

/-- First-match association lookup in `title_to_ids` (empty list for a
missing title). -/
def getIdsA : List (Str × List Str) → Str → List Str
  | [], _ => []
  | (k, v) :: r, t => if k = t then v else getIdsA r t

/-- Keys of a `title_to_ids` dict. -/
def keysT (m : List (Str × List Str)) : List Str := m.map (fun p => p.1)

/-- The section_ids of the chunks carrying a given title, in chunk
order — the reference value of `title_to_ids[title]`. -/
def idsOf (chunks : List Chunk) (t : Str) : List Str :=
  (chunks.filter (fun c => c.section_title == t)).map (fun c => c.section_id)

/-! ### Basic loop lemmas -/

theorem chunkLoop_nil (L O : Nat) (text : Str) (fuel start : Nat)
    (h : text.length ≤ start) : chunkLoop L O text fuel start = [] := by
  cases fuel with
  | zero => rfl
  | succ f => simp [chunkLoop, Nat.not_lt.mpr h]

theorem chunkLoop_cons (L O : Nat) (text : Str) (fuel start : Nat)
    (h : start < text.length) :
    chunkLoop L O text (fuel + 1) start
      = ((text.drop start).take L) :: chunkLoop L O text fuel (start + L - O) := by
  simp [chunkLoop, h]

theorem step_arith (start L O j : Nat) (hO : O < L) :
    (start + L - O) + j * (L - O) = start + (j + 1) * (L - O) := by
  rw [Nat.succ_mul]
  omega

theorem chunkLoop_length_iff (L O : Nat) (hO : O < L) (text : Str) :
    ∀ fuel start, text.length ≤ start + fuel →
      ∀ i, (i < (chunkLoop L O text fuel start).length ↔
        start + i * (L - O) < text.length) := by
  intro fuel
  induction fuel with
  | zero =>
    intro start h i
    simp only [chunkLoop, List.length_nil]
    omega
  | succ f ih =>
    intro start h i
    by_cases hs : start < text.length
    · rw [chunkLoop_cons _ _ _ _ _ hs]
      cases i with
      | zero => simpa using hs
      | succ j =>
        have h' : text.length ≤ (start + L - O) + f := by omega
        have hj := ih (start + L - O) h' j
        rw [step_arith _ _ _ _ hO] at hj
        simpa [Nat.succ_lt_succ_iff] using hj
    · rw [chunkLoop_nil _ _ _ _ _ (by omega)]
      simp only [List.length_nil]
      omega

theorem chunkLoop_getD (L O : Nat) (hO : O < L) (text : Str) :
    ∀ fuel start, text.length ≤ start + fuel →
      ∀ i, i < (chunkLoop L O text fuel start).length →
        (chunkLoop L O text fuel start).getD i []
          = (text.drop (start + i * (L - O))).take L := by
  intro fuel
  induction fuel with
  | zero =>
    intro start h i hi
    simp [chunkLoop] at hi
  | succ f ih =>
    intro start h i hi
    by_cases hs : start < text.length
    · rw [chunkLoop_cons _ _ _ _ _ hs] at hi ⊢
      cases i with
      | zero => simp
      | succ j =>
        have h' : text.length ≤ (start + L - O) + f := by omega
        have hj := ih (start + L - O) h' j (by simpa [Nat.succ_lt_succ_iff] using hi)
        rw [step_arith _ _ _ _ hO] at hj
        simpa using hj
    · rw [chunkLoop_nil _ _ _ _ _ (by omega)] at hi
      simp at hi

theorem chunkLoop_dropFlatten (L O : Nat) (hO : O < L) (text : Str) :
    ∀ fuel start, text.length ≤ start + fuel →
      ((chunkLoop L O text fuel start).map (fun c => c.drop O)).flatten
        = text.drop (start + O) := by
  intro fuel
  induction fuel with
  | zero =>
    intro start h
    rw [chunkLoop_nil _ _ _ _ _ (by omega)]
    rw [List.drop_of_length_le (by omega)]
    rfl
  | succ f ih =>
    intro start h
    by_cases hs : start < text.length
    · rw [chunkLoop_cons _ _ _ _ _ hs]
      rw [List.map_cons, List.flatten_cons]
      rw [ih (start + L - O) (by omega)]
      rw [List.drop_take]
      rw [List.drop_drop]
      have hB : List.drop (start + L - O + O) text
          = List.drop (L - O) (List.drop (start + O) text) := by
        rw [List.drop_drop]
        congr 1
        omega
      rw [hB]
      exact List.take_append_drop _ _
    · rw [chunkLoop_nil _ _ _ _ _ (by omega)]
      rw [List.drop_of_length_le (by omega)]
      rfl

theorem chunkLoop_stable (L O : Nat) (hO : O < L) (text : Str) :
    ∀ fuel start k, text.length ≤ start + fuel →
      chunkLoop L O text (fuel + k) start = chunkLoop L O text fuel start := by
  intro fuel
  induction fuel with
  | zero =>
    intro start k h
    rw [chunkLoop_nil _ _ _ _ _ (by omega), chunkLoop_nil _ _ _ _ _ (by omega)]
  | succ f ih =>
    intro start k h
    by_cases hs : start < text.length
    · have : f + 1 + k = (f + k) + 1 := by omega
      rw [this, chunkLoop_cons _ _ _ _ _ hs, chunkLoop_cons _ _ _ _ _ hs]
      rw [ih (start + L - O) k (by omega)]
    · rw [chunkLoop_nil _ _ _ _ _ (by omega), chunkLoop_nil _ _ _ _ _ (by omega)]

theorem chunkLoop_mem_pos (L O : Nat) (hL : 0 < L) (text : Str) :
    ∀ fuel start c, c ∈ chunkLoop L O text fuel start → 0 < c.length := by
  intro fuel
  induction fuel with
  | zero =>
    intro start c hc
    simp [chunkLoop] at hc
  | succ f ih =>
    intro start c hc
    by_cases hs : start < text.length
    · rw [chunkLoop_cons _ _ _ _ _ hs] at hc
      rcases List.mem_cons.mp hc with rfl | hc
      · simp only [List.length_take, List.length_drop]
        omega
      · exact ih _ _ hc
    · rw [chunkLoop_nil _ _ _ _ _ (by omega)] at hc
      simp at hc

theorem startIter_eq (L O : Nat) : ∀ n, startIter L O n = n * ((L : Int) - O) := by
  intro n
  induction n with
  | zero => simp [startIter]
  | succ k ih =>
    simp only [startIter, ih]
    push_cast
    ring

/-- C2 (amended): for `0 ≤ O < L`, `chunk_text` returns exactly the
windows whose i-th element is the substring of `text` covering
`[i*(L-O), i*(L-O)+L)` clipped to the text length, produced while the
window start is strictly below the text length; every character of the
input appears in at least one window; and consecutive windows `i`,
`i+1` share a block that is the last part of window `i` and the first
part of window `i+1`, of length exactly `min O (length of window i+1)`
— in particular exactly `O` whenever the later window is at least `O`
long, but possibly shorter near the end of the text. -/
theorem chunk_text_windows (L O : Nat) (text : Str) (hO : O < L) :
    (∀ i, i < (chunk_text L O text).length ↔ i * (L - O) < text.length)
    ∧ (∀ i, i < (chunk_text L O text).length →
        (chunk_text L O text).getD i [] = (text.drop (i * (L - O))).take L)
    ∧ (∀ j, j < text.length → ∃ i, i < (chunk_text L O text).length ∧
        i * (L - O) ≤ j ∧ j < i * (L - O) + L)
    ∧ (∀ i, i + 2 ≤ (chunk_text L O text).length →
        ((chunk_text L O text).getD i []).drop (L - O)
          = ((chunk_text L O text).getD (i + 1) []).take O
        ∧ (((chunk_text L O text).getD i []).drop (L - O)).length
          = min O ((chunk_text L O text).getD (i + 1) []).length) := by
  have hlen : ∀ i, i < (chunk_text L O text).length ↔ i * (L - O) < text.length := by
    intro i
    simpa [chunk_text] using
      chunkLoop_length_iff L O hO text (text.length + 1) 0 (by omega) i
  have hget : ∀ i, i < (chunk_text L O text).length →
      (chunk_text L O text).getD i [] = (text.drop (i * (L - O))).take L := by
    intro i hi
    have := chunkLoop_getD L O hO text (text.length + 1) 0 (by omega) i
      (by simpa [chunk_text] using hi)
    simpa [chunk_text] using this
  refine ⟨hlen, hget, ?_, ?_⟩
  · intro j hj
    have hS : 0 < L - O := by omega
    have hdm := Nat.div_add_mod j (L - O)
    have hmod : j % (L - O) < L - O := Nat.mod_lt _ hS
    have hmul : j / (L - O) * (L - O) ≤ j := Nat.div_mul_le_self j (L - O)
    have hcomm : j / (L - O) * (L - O) = (L - O) * (j / (L - O)) := Nat.mul_comm _ _
    refine ⟨j / (L - O), ?_, hmul, ?_⟩
    · exact (hlen _).mpr (by omega)
    · omega
  · intro i h2
    have hi : i < (chunk_text L O text).length := by omega
    have hi1 : i + 1 < (chunk_text L O text).length := by omega
    rw [hget i hi, hget (i + 1) hi1]
    have e3 : i * (L - O) + (L - O) = (i + 1) * (L - O) := by
      rw [Nat.succ_mul]
    have hlt1 : (i + 1) * (L - O) < text.length := (hlen _).mp hi1
    constructor
    · rw [List.drop_take, List.take_take, List.drop_drop]
      have e1 : L - (L - O) = O := by omega
      have e2 : min O L = O := by omega
      rw [e1, e2, e3]
    · simp only [List.length_drop, List.length_take]
      omega

/-- C2 fails as written: with `L = 5`, `O = 4` and text `"abc"`, the
windows are `["abc", "bc", "c"]`; the consecutive pair at indices 0
and 1 does not involve the final window and cannot share exactly 4
characters, since both members are shorter than 4. -/
theorem chunk_text_overlap_cex : ¬ specClaimC2 5 4 ['a', 'b', 'c'] := by
  intro h
  rcases h.2.2.2 0 (by decide) (by decide) with h4 | h4
  · exact absurd h4 (by decide)
  · exact absurd h4.1 (by decide)

theorem chunk_text_windows_wit :
    (chunk_text 3 1 ['a', 'b', 'c', 'd']).getD 1 []
      = ((['a', 'b', 'c', 'd'] : Str).drop (1 * (3 - 1))).take 3 :=
  (chunk_text_windows 3 1 ['a', 'b', 'c', 'd'] (by decide)).2.1 1 (by decide)

/-- C3: for `0 ≤ O < L`, concatenating the windows of
`chunk_text text` with the first `O` characters removed from every
window after the first reconstructs `text` exactly, and the empty text
yields an empty window list. -/
theorem chunk_text_reassemble (L O : Nat) (text : Str) (hO : O < L) :
    reassemble O (chunk_text L O text) = text ∧ chunk_text L O ([] : Str) = [] := by
  constructor
  · by_cases h0 : text.length = 0
    · have : text = [] := List.length_eq_zero.mp h0
      subst this
      simp [chunk_text, chunkLoop, reassemble]
    · have hpos : 0 < text.length := Nat.pos_of_ne_zero h0
      show reassemble O (chunkLoop L O text (text.length + 1) 0) = text
      rw [chunkLoop_cons _ _ _ _ _ hpos]
      simp only [reassemble]
      rw [chunkLoop_dropFlatten L O hO text text.length (0 + L - O) (by omega)]
      rw [List.drop_zero]
      have e : (0 + L - O) + O = L := by omega
      rw [e]
      exact List.take_append_drop L text
  · simp [chunk_text, chunkLoop]

theorem chunk_text_reassemble_wit :
    reassemble 1 (chunk_text 3 1 ['a', 'b', 'c', 'd']) = ['a', 'b', 'c', 'd']
      ∧ chunk_text 3 1 ([] : Str) = [] :=
  chunk_text_reassemble 3 1 ['a', 'b', 'c', 'd'] (by decide)

/-- C4 fails as written: `"abc"` is a window produced by
`chunk_text 5 4 "abc"` and has length `3 ≤ 5`, yet re-chunking it with
the same parameters yields `["abc", "bc", "c"]`, not `["abc"]`. -/
theorem chunk_text_rechunk_cex :
    (['a', 'b', 'c'] : Str) ∈ chunk_text 5 4 ['a', 'b', 'c']
      ∧ (['a', 'b', 'c'] : Str).length ≤ 5
      ∧ chunk_text 5 4 ['a', 'b', 'c'] ≠ [['a', 'b', 'c']] := by
  decide

/-- C4 (amended): a window `c` produced by `chunk_text` with
parameters `(L, O)`, `0 ≤ O < L`, re-chunks to exactly `[c]` when its
length is at most `L - O` (the loop advance); the bound `≤ L` of the
original claim is not sufficient, since any window longer than `L - O`
is split again. -/
theorem chunk_text_rechunk (L O : Nat) (text c : Str) (hO : O < L)
    (hc : c ∈ chunk_text L O text) (hlen : c.length ≤ L - O) :
    chunk_text L O c = [c] := by
  have hpos : 0 < c.length := chunkLoop_mem_pos L O (by omega) text _ _ _ hc
  show chunkLoop L O c (c.length + 1) 0 = [c]
  rw [chunkLoop_cons _ _ _ _ _ hpos]
  rw [List.drop_zero, List.take_of_length_le (by omega)]
  rw [chunkLoop_nil _ _ _ _ _ (by omega)]

theorem chunk_text_rechunk_wit :
    chunk_text 3 1 ['c', 'd'] = [['c', 'd']] :=
  chunk_text_rechunk 3 1 ['a', 'b', 'c', 'd'] ['c', 'd']
    (by decide) (by decide) (by decide)

/-- C10: with `0 ≤ O < L` the chunking loop terminates on every input:
the Python start index strictly increases each iteration, reaches any
text length within `len` iterations, and giving the loop more than
`text.length + 1` units of fuel never changes its output.  The
precondition is unvalidated by the constructor: when `O ≥ L`, the
start index never advances past its initial value, so on any non-empty
text the loop guard `start < len(text)` stays true forever — the loop
consumes every amount of fuel without ever exiting through its
guard. -/
theorem chunk_termination_spec (L O : Nat) :
    (O < L →
      (∀ n : Nat, startIter L O n + 1 ≤ startIter L O (n + 1))
      ∧ (∀ len : Nat, (len : Int) ≤ startIter L O len)
      ∧ (∀ text : Str, ∀ extra : Nat,
          chunkLoop L O text (text.length + 1 + extra) 0
            = chunkLoop L O text (text.length + 1) 0))
    ∧ (L ≤ O → ∀ text : Str, text ≠ [] →
      (∀ n : Nat, startIter L O n < (text.length : Int))
      ∧ (∀ fuel : Nat, (chunkLoop L O text fuel 0).length = fuel)) := by
  constructor
  · intro hO
    have hd : (1 : Int) ≤ (L : Int) - O := by
      have : (O : Int) < (L : Int) := by exact_mod_cast hO
      omega
    refine ⟨?_, ?_, ?_⟩
    · intro n
      simp only [startIter]
      omega
    · intro len
      rw [startIter_eq]
      calc (len : Int) = (len : Int) * 1 := by ring
        _ ≤ (len : Int) * ((L : Int) - O) :=
          mul_le_mul_of_nonneg_left hd (by positivity)
    · intro text extra
      exact chunkLoop_stable L O hO text (text.length + 1) 0 extra (by omega)
  · intro hO text htext
    have hpos : 0 < text.length := List.length_pos.mpr htext
    constructor
    · intro n
      rw [startIter_eq]
      have hd : (L : Int) - O ≤ 0 := by
        have : (L : Int) ≤ (O : Int) := by exact_mod_cast hO
        omega
      have h0 : (n : Int) * ((L : Int) - O) ≤ 0 :=
        mul_nonpos_of_nonneg_of_nonpos (by positivity) hd
      have : (1 : Int) ≤ (text.length : Int) := by exact_mod_cast hpos
      omega
    · intro fuel
      induction fuel with
      | zero => rfl
      | succ f ih =>
        rw [chunkLoop_cons _ _ _ _ _ hpos]
        have e : 0 + L - O = 0 := by omega
        rw [List.length_cons, e, ih]

theorem chunk_termination_spec_wit :
    ((4 : Int) ≤ startIter 3 1 4) ∧ (chunkLoop 1 2 ['z'] 5 0).length = 5 :=
  ⟨((chunk_termination_spec 3 1).1 (by decide)).2.1 4,
   ((chunk_termination_spec 1 2).2 (by decide) ['z'] (by decide)).2 5⟩

/-! ### build_page_ranges: entrywise characterisation -/

theorem bpr_length (toc : List TocEntry) (total : Int) :
    (build_page_ranges toc total).length = toc.length := by
  induction toc with
  | nil => rfl
  | cons e rest ih =>
    cases rest with
    | nil => rfl
    | cons e2 r =>
      simp only [build_page_ranges, List.length_cons] at ih ⊢
      omega

theorem bpr_sid (toc : List TocEntry) (total : Int) :
    ∀ i, i < toc.length →
      ((build_page_ranges toc total).getD i dfltSection).section_id
        = (toc.getD i dfltEntry).section_id := by
  induction toc with
  | nil => intro i hi; simp at hi
  | cons e rest ih =>
    intro i hi
    cases rest with
    | nil =>
      have : i = 0 := by simpa using hi
      subst this
      rfl
    | cons e2 r =>
      cases i with
      | zero => rfl
      | succ j =>
        simp only [build_page_ranges, List.getD_cons_succ]
        exact ih j (by simpa using hi)

theorem bpr_start (toc : List TocEntry) (total : Int) :
    ∀ i, i < toc.length →
      ((build_page_ranges toc total).getD i dfltSection).start_page
        = (toc.getD i dfltEntry).page - 1 := by
  induction toc with
  | nil => intro i hi; simp at hi
  | cons e rest ih =>
    intro i hi
    cases rest with
    | nil =>
      have : i = 0 := by simpa using hi
      subst this
      rfl
    | cons e2 r =>
      cases i with
      | zero => rfl
      | succ j =>
        simp only [build_page_ranges, List.getD_cons_succ]
        exact ih j (by simpa using hi)

theorem bpr_end_mid (toc : List TocEntry) (total : Int) :
    ∀ i, i + 1 < toc.length →
      ((build_page_ranges toc total).getD i dfltSection).end_page
        = (if 1 ≤ (toc.getD (i + 1) dfltEntry).page - (toc.getD i dfltEntry).page
           then (toc.getD (i + 1) dfltEntry).page - 1
           else (toc.getD i dfltEntry).page - 1) := by
  induction toc with
  | nil => intro i hi; simp at hi
  | cons e rest ih =>
    intro i hi
    cases rest with
    | nil => simp at hi
    | cons e2 r =>
      cases i with
      | zero => rfl
      | succ j =>
        simp only [build_page_ranges, List.getD_cons_succ]
        exact ih j (by simpa using hi)

theorem bpr_end_last (toc : List TocEntry) (total : Int) (hne : toc ≠ []) :
    ((build_page_ranges toc total).getD (toc.length - 1) dfltSection).end_page
      = total - 1 := by
  induction toc with
  | nil => exact absurd rfl hne
  | cons e rest ih =>
    cases rest with
    | nil => rfl
    | cons e2 r =>
      have h := ih (by simp)
      simp only [List.length_cons] at h ⊢
      simp only [build_page_ranges]
      have e1 : r.length + 1 + 1 - 1 = (r.length + 1 - 1) + 1 := by omega
      rw [e1, List.getD_cons_succ]
      exact h

/-- C1 fails as written: for TOC entries with printed pages 1 and 3
and 10 total pages, the code assigns the first section `end_page = 2`
(`next_page - 1`, the 0-based page on which the next section starts),
not `next.page - 2 = 1` as the claim states. -/
theorem build_page_ranges_claim_cex :
    ¬ specClaimC1 [⟨['1'], ['A'], 1⟩, ⟨['2'], ['B'], 3⟩] 10 := by
  intro h
  have h2 := (((h.2 0 (by decide)).2.1 (by decide)).1 (by decide))
  exact absurd h2 (by decide)

/-- C1 (amended): for every TOC entry list and total page count,
`build_page_ranges` assigns to entry i `start_page = printed page - 1`;
when a next entry exists and its printed page is at least one greater
than the current entry's printed page, `end_page = next.page - 1` (the
0-based index of the page on which the next section starts, so
adjacent ranges share that boundary page); when the next entry's page
is not strictly greater, `end_page` collapses to `start_page`; and the
final entry's `end_page = total_pages - 1`. -/
theorem build_page_ranges_entrywise (toc : List TocEntry) (total : Int) :
    (build_page_ranges toc total).length = toc.length
    ∧ ∀ i, i < toc.length →
        ((build_page_ranges toc total).getD i dfltSection).section_id
            = (toc.getD i dfltEntry).section_id
        ∧ ((build_page_ranges toc total).getD i dfltSection).start_page
            = (toc.getD i dfltEntry).page - 1
        ∧ (i + 1 < toc.length →
            (1 ≤ (toc.getD (i + 1) dfltEntry).page - (toc.getD i dfltEntry).page →
              ((build_page_ranges toc total).getD i dfltSection).end_page
                = (toc.getD (i + 1) dfltEntry).page - 1)
            ∧ (¬ 1 ≤ (toc.getD (i + 1) dfltEntry).page - (toc.getD i dfltEntry).page →
              ((build_page_ranges toc total).getD i dfltSection).end_page
                = ((build_page_ranges toc total).getD i dfltSection).start_page))
        ∧ (i + 1 = toc.length →
            ((build_page_ranges toc total).getD i dfltSection).end_page = total - 1) := by
  refine ⟨bpr_length toc total, fun i hi => ⟨bpr_sid toc total i hi, bpr_start toc total i hi, ?_, ?_⟩⟩
  · intro h1
    constructor
    · intro hc
      rw [bpr_end_mid toc total i h1, if_pos hc]
    · intro hc
      rw [bpr_end_mid toc total i h1, if_neg hc, bpr_start toc total i hi]
  · intro hlast
    have hne : toc ≠ [] := by
      intro h
      subst h
      simp at hi
    have := bpr_end_last toc total hne
    have e : toc.length - 1 = i := by omega
    rwa [e] at this

theorem build_page_ranges_entrywise_wit :
    ((build_page_ranges [⟨['1'], ['A'], 1⟩, ⟨['2'], ['B'], 3⟩] 10).getD 0 dfltSection).end_page
      = (([⟨['1'], ['A'], 1⟩, ⟨['2'], ['B'], 3⟩] : List TocEntry).getD (0 + 1) dfltEntry).page - 1 :=
  (((build_page_ranges_entrywise [⟨['1'], ['A'], 1⟩, ⟨['2'], ['B'], 3⟩] 10).2
      0 (by decide)).2.2.1 (by decide)).1 (by decide)

/-- C5 fails as written: a TOC whose printed pages decrease (5 then 3)
produces `start_page` values 4 then 2, which are not monotonically
non-decreasing. -/
theorem build_page_ranges_invariants_cex :
    ¬ specClaimC5 [⟨['1'], ['A'], 5⟩, ⟨['2'], ['B'], 3⟩] 10 := by
  intro h
  have h2 := (h (by decide)).2.1 0 (by decide) (by decide)
  exact absurd h2 (by decide)

/-- C5 (amended): for every non-empty TOC entry list and total page
count, the returned ranges are contiguous — the next section's
`start_page` never exceeds the previous section's `end_page + 1` (in
fact adjacent ranges share the boundary page when the printed pages
increase) — and the last section's `end_page` is `total_pages - 1`,
both unconditionally; `start_page` is monotonically non-decreasing
whenever the printed TOC page numbers are themselves non-decreasing,
which the claim's universal version lacks. -/
theorem build_page_ranges_invariants (toc : List TocEntry) (total : Int)
    (hne : toc ≠ []) :
    (∀ i, i + 1 < toc.length →
      ((build_page_ranges toc total).getD (i + 1) dfltSection).start_page
        ≤ ((build_page_ranges toc total).getD i dfltSection).end_page + 1)
    ∧ ((build_page_ranges toc total).getD (toc.length - 1) dfltSection).end_page
        = total - 1
    ∧ ((∀ i, i + 1 < toc.length →
          (toc.getD i dfltEntry).page ≤ (toc.getD (i + 1) dfltEntry).page) →
        ∀ i, i + 1 < toc.length →
          ((build_page_ranges toc total).getD i dfltSection).start_page
            ≤ ((build_page_ranges toc total).getD (i + 1) dfltSection).start_page) := by
  refine ⟨?_, bpr_end_last toc total hne, ?_⟩
  · intro i hi1
    have hi : i < toc.length := by omega
    rw [bpr_start toc total (i + 1) hi1, bpr_end_mid toc total i hi1]
    split_ifs with hc
    · omega
    · omega
  · intro hmono i hi1
    have hi : i < toc.length := by omega
    rw [bpr_start toc total (i + 1) hi1, bpr_start toc total i hi]
    have := hmono i hi1
    omega

theorem build_page_ranges_invariants_wit :
    ((build_page_ranges [⟨['1'], ['A'], 1⟩, ⟨['2'], ['B'], 3⟩] 10).getD
        (([⟨['1'], ['A'], 1⟩, ⟨['2'], ['B'], 3⟩] : List TocEntry).length - 1)
        dfltSection).end_page = 10 - 1 :=
  (build_page_ranges_invariants [⟨['1'], ['A'], 1⟩, ⟨['2'], ['B'], 3⟩] 10 (by decide)).2.1

/-- C6: `parse_toc_line "1.1.  Purpose ..... 12"` returns section_id
`"1.1"`, title `"Purpose"` and page 12 (pattern 1, the most specific
grammar, wins), and `parse_toc_line "1.  Scope ..... 3"` returns
section_id `"1"`, title `"Scope"` and page 3 (patterns 1-3 fail, the
single-level grammar `^(\d+)\.` matches); dot-leader runs and the
trailing page number are stripped from the titles. -/
theorem parse_toc_line_priority :
    parse_toc_line
        ['1', '.', '1', '.', ' ', ' ', 'P', 'u', 'r', 'p', 'o', 's', 'e',
         ' ', '.', '.', '.', '.', '.', ' ', '1', '2']
      = some ⟨['1', '.', '1'], ['P', 'u', 'r', 'p', 'o', 's', 'e'], 12⟩
    ∧ parse_toc_line
        ['1', '.', ' ', ' ', 'S', 'c', 'o', 'p', 'e',
         ' ', '.', '.', '.', '.', '.', ' ', '3']
      = some ⟨['1'], ['S', 'c', 'o', 'p', 'e'], 3⟩ := by
  constructor
  · rfl
  · rfl

/-! ### Batch boundary behaviour (claim C7) -/

theorem batchResults_length (L O : Nat) (docs : List PDoc) :
    (batchResults L O docs).length = docs.length := by
  simp [batchResults]

theorem batchResults_getD (L O : Nat) (docs : List PDoc) (j : Nat)
    (hj : j < docs.length) :
    (batchResults L O docs).getD j dfltResult
      = process_single_pdf L O (docs.getD j dfltDoc) := by
  unfold batchResults
  rw [List.getD_eq_getElem?_getD, List.getD_eq_getElem?_getD]
  rw [List.getElem?_map]
  cases hx : docs[j]? with
  | none => exact absurd (List.getElem?_eq_none_iff.mp hx) (by omega)
  | some x => simp

/-- C7: a document in whose pages no TOC page is located makes
`process_pdf` raise, the error is caught per document at the batch
boundary: `process_all` records a failure entry carrying that file's
name and the error message, every other document is still processed by
the same per-document pipeline, and the batch result carries all
chunks of the successful documents together with total, success and
failure counts — the failed document never aborts the batch. -/
theorem process_all_toc_failure (L O : Nat) (docs : List PDoc) (i : Nat)
    (hi : i < docs.length)
    (hfail : find_toc_page ((docs.getD i dfltDoc).pages) = none) :
    process_all L O docs
      = BatchResult.done docs.length (succCount (batchResults L O docs))
          (docs.length - succCount (batchResults L O docs))
          (allOkChunks (batchResults L O docs)).length
          (allOkChunks (batchResults L O docs))
          (batchResults L O docs)
    ∧ (batchResults L O docs).length = docs.length
    ∧ (batchResults L O docs).getD i dfltResult
        = SingleResult.err (docs.getD i dfltDoc).name errNoToc
    ∧ (∀ j, j < docs.length →
        (batchResults L O docs).getD j dfltResult
          = process_single_pdf L O (docs.getD j dfltDoc))
    ∧ succCount (batchResults L O docs)
        + (docs.length - succCount (batchResults L O docs)) = docs.length
    ∧ succCount (batchResults L O docs) + 1 ≤ docs.length := by
  have hlen := batchResults_length L O docs
  have herr : (batchResults L O docs).getD i dfltResult
      = SingleResult.err (docs.getD i dfltDoc).name errNoToc := by
    rw [batchResults_getD L O docs i hi]
    simp only [process_single_pdf, process_pdf, hfail]
  have hsle : succCount (batchResults L O docs) ≤ docs.length := by
    have := List.length_filter_le isOk (batchResults L O docs)
    unfold succCount
    omega
  have hstrict : succCount (batchResults L O docs) + 1 ≤ docs.length := by
    have hmem : (batchResults L O docs).getD i dfltResult ∈ batchResults L O docs := by
      rw [List.getD_eq_getElem _ _ (by omega)]
      exact List.getElem_mem _
    have hnotok : ¬ (isOk ((batchResults L O docs).getD i dfltResult) = true) := by
      rw [herr]
      simp [isOk]
    have := List.length_filter_lt_length_iff_exists.mpr ⟨_, hmem, hnotok⟩
    unfold succCount
    omega
  refine ⟨?_, hlen, herr, fun j hj => batchResults_getD L O docs j hj, by omega, hstrict⟩
  cases docs with
  | nil => simp at hi
  | cons d ds =>
    simp only [process_all]
    rw [batchResults_length]

/-- Sanity check of the model: the synthetic document runs through the
whole per-document pipeline successfully. -/
theorem docGood_ok : isOk (process_single_pdf 512 100 docGood) = true := by
  decide

theorem process_all_toc_failure_wit :
    (batchResults 512 100 [docBad, docGood]).getD 0 dfltResult
        = SingleResult.err (([docBad, docGood].getD 0 dfltDoc).name) errNoToc
    ∧ (batchResults 512 100 [docBad, docGood]).getD 1 dfltResult
        = process_single_pdf 512 100 ([docBad, docGood].getD 1 dfltDoc)
    ∧ succCount (batchResults 512 100 [docBad, docGood])
        + ([docBad, docGood].length - succCount (batchResults 512 100 [docBad, docGood]))
        = [docBad, docGood].length :=
  ⟨(process_all_toc_failure 512 100 [docBad, docGood] 0 (by decide) (by decide)).2.2.1,
   (process_all_toc_failure 512 100 [docBad, docGood] 0 (by decide) (by decide)).2.2.2.1
     1 (by decide),
   (process_all_toc_failure 512 100 [docBad, docGood] 0 (by decide) (by decide)).2.2.2.2.1⟩

/-! ### Metadata enrichment (claim C9) -/

theorem setKey_keys (m : List (Str × MetaVal)) (k : Str) (v : MetaVal) :
    keysOf (setKey m k v)
      = if k ∈ keysOf m then keysOf m else keysOf m ++ [k] := by
  induction m with
  | nil => simp [setKey, keysOf]
  | cons p r ih =>
    obtain ⟨a, b⟩ := p
    by_cases h : a = k
    · subst h
      have hmem : a ∈ keysOf ((a, b) :: r) := by
        show a ∈ a :: keysOf r
        exact List.mem_cons_self a _
      rw [if_pos hmem]
      have e0 : setKey ((a, b) :: r) a v = (a, v) :: r := by simp [setKey]
      rw [e0]
      rfl
    · have e1 : setKey ((a, b) :: r) k v = (a, b) :: setKey r k v := by
        simp [setKey, h]
      have e2 : keysOf ((a, b) :: setKey r k v) = a :: keysOf (setKey r k v) := rfl
      have e3 : keysOf ((a, b) :: r) = a :: keysOf r := rfl
      rw [e1, e2, e3, ih]
      by_cases hk : k ∈ keysOf r
      · rw [if_pos hk, if_pos (List.mem_cons_of_mem a hk)]
      · have hnot : ¬ k ∈ a :: keysOf r := by
          intro hcon
          rcases List.mem_cons.mp hcon with h1 | h2
          · exact h h1.symm
          · exact hk h2
        rw [if_neg hk, if_neg hnot]
        simp

theorem setKey_lookup_self (m : List (Str × MetaVal)) (k : Str) (v : MetaVal) :
    lookupV (setKey m k v) k = some v := by
  induction m with
  | nil => simp [setKey, lookupV]
  | cons p r ih =>
    obtain ⟨a, b⟩ := p
    by_cases h : a = k
    · simp [setKey, h, lookupV]
    · simp [setKey, h, lookupV, ih]

theorem setKey_lookup_other (m : List (Str × MetaVal)) (k : Str) (v : MetaVal)
    (k' : Str) (h : k' ≠ k) :
    lookupV (setKey m k v) k' = lookupV m k' := by
  induction m with
  | nil =>
    have : ¬ (k = k') := fun hh => h hh.symm
    simp [setKey, lookupV, this]
  | cons p r ih =>
    obtain ⟨a, b⟩ := p
    by_cases ha : a = k
    · subst ha
      have : ¬ (a = k') := fun hh => h hh.symm
      simp [setKey, lookupV, this]
    · simp [setKey, ha, lookupV, ih]

theorem setKey_mem_keys (m : List (Str × MetaVal)) (k : Str) (v : MetaVal)
    (k' : Str) (h : k' ∈ keysOf m) : k' ∈ keysOf (setKey m k v) := by
  rw [setKey_keys]
  split_ifs
  · exact h
  · exact List.mem_append_left _ h

theorem enrich_getD (chunks : List Chunk) (docName : Str) (i : Nat)
    (hi : i < chunks.length) :
    (enrich_with_metadata chunks docName).getD i dfltChunk
      = { chunks.getD i dfltChunk with
          text := hdrDoc ++ docName ++ ('\n' :: hdrSec)
                    ++ (chunks.getD i dfltChunk).section_id ++ sepDash
                    ++ (chunks.getD i dfltChunk).section_title
                    ++ ('\n' :: '\n' :: (chunks.getD i dfltChunk).text)
          metadata := setKey (chunks.getD i dfltChunk).metadata keyDocName
                        (MetaVal.str docName) } := by
  unfold enrich_with_metadata
  rw [List.getD_eq_getElem?_getD, List.getD_eq_getElem?_getD]
  rw [List.getElem?_map]
  cases hx : chunks[i]? with
  | none => exact absurd (List.getElem?_eq_none_iff.mp hx) (by omega)
  | some x => simp

/-- C9: `enrich_with_metadata` returns one output chunk per input
chunk, in order; the output metadata keeps every key of the input
metadata and maps `document_name` to the document name, while any
other existing key keeps its value; the output text is the two-line
header (document name; section id and title), a blank line, and the
original chunk text; `id`, `section_id` and `section_title` are
unchanged.  (The input chunks are values of the embedding and are
never mutated.) -/
theorem enrich_with_metadata_spec (chunks : List Chunk) (docName : Str) :
    (enrich_with_metadata chunks docName).length = chunks.length
    ∧ ∀ i, i < chunks.length →
        ((enrich_with_metadata chunks docName).getD i dfltChunk).id
            = (chunks.getD i dfltChunk).id
        ∧ ((enrich_with_metadata chunks docName).getD i dfltChunk).section_id
            = (chunks.getD i dfltChunk).section_id
        ∧ ((enrich_with_metadata chunks docName).getD i dfltChunk).section_title
            = (chunks.getD i dfltChunk).section_title
        ∧ ((enrich_with_metadata chunks docName).getD i dfltChunk).text
            = hdrDoc ++ docName ++ ('\n' :: hdrSec)
                ++ (chunks.getD i dfltChunk).section_id ++ sepDash
                ++ (chunks.getD i dfltChunk).section_title
                ++ ('\n' :: '\n' :: (chunks.getD i dfltChunk).text)
        ∧ (∀ k, k ∈ keysOf (chunks.getD i dfltChunk).metadata →
            k ∈ keysOf ((enrich_with_metadata chunks docName).getD i dfltChunk).metadata)
        ∧ lookupV ((enrich_with_metadata chunks docName).getD i dfltChunk).metadata
              keyDocName = some (MetaVal.str docName)
        ∧ (∀ k v, k ≠ keyDocName →
            lookupV (chunks.getD i dfltChunk).metadata k = some v →
            lookupV ((enrich_with_metadata chunks docName).getD i dfltChunk).metadata k
              = some v) := by
  constructor
  · simp [enrich_with_metadata]
  · intro i hi
    rw [enrich_getD chunks docName i hi]
    refine ⟨rfl, rfl, rfl, rfl, ?_, ?_, ?_⟩
    · intro k hk
      exact setKey_mem_keys _ _ _ _ hk
    · exact setKey_lookup_self _ _ _
    · intro k v hne hv
      rw [setKey_lookup_other _ _ _ _ hne]
      exact hv

theorem enrich_with_metadata_spec_wit :
    lookupV (((enrich_with_metadata
        [⟨['1', '_', '0'], ['1'], ['T'], ['b'],
          [(keyPageStart, MetaVal.int 1), (keyPageEnd, MetaVal.int 2)]⟩]
        ['문']).getD 0 dfltChunk).metadata) keyDocName
      = some (MetaVal.str ['문']) :=
  ((enrich_with_metadata_spec
      [⟨['1', '_', '0'], ['1'], ['T'], ['b'],
        [(keyPageStart, MetaVal.int 1), (keyPageEnd, MetaVal.int 2)]⟩]
      ['문']).2 0 (by decide)).2.2.2.2.2.1

theorem appendId_getIds (m : List (Str × List Str)) (t x t' : Str) :
    getIdsA (appendId m t x) t'
      = if t' = t then getIdsA m t ++ [x] else getIdsA m t' := by
  induction m with
  | nil =>
    by_cases h : t' = t
    · subst h
      simp [appendId, getIdsA]
    · have h2 : ¬ (t = t') := fun hh => h hh.symm
      simp [appendId, getIdsA, h, h2]
  | cons p r ih =>
    obtain ⟨a, v⟩ := p
    by_cases hat : a = t
    · subst hat
      by_cases h : t' = a
      · subst h
        simp [appendId, getIdsA]
      · have h2 : ¬ (a = t') := fun hh => h hh.symm
        simp [appendId, getIdsA, h, h2]
    · by_cases h : t' = a
      · subst h
        simp [appendId, getIdsA, hat]
      · have h2 : ¬ (a = t') := fun hh => h hh.symm
        simp only [appendId, if_neg hat, getIdsA, if_neg h2]
        exact ih

theorem appendId_keys (m : List (Str × List Str)) (t x : Str) :
    keysT (appendId m t x)
      = if t ∈ keysT m then keysT m else keysT m ++ [t] := by
  induction m with
  | nil => simp [appendId, keysT]
  | cons p r ih =>
    obtain ⟨a, v⟩ := p
    by_cases hat : a = t
    · subst hat
      have hmem : a ∈ keysT ((a, v) :: r) := by
        show a ∈ a :: keysT r
        exact List.mem_cons_self a _
      rw [if_pos hmem]
      have e0 : appendId ((a, v) :: r) a x = (a, v ++ [x]) :: r := by
        simp [appendId]
      rw [e0]
      rfl
    · have e1 : appendId ((a, v) :: r) t x = (a, v) :: appendId r t x := by
        simp [appendId, hat]
      have e2 : keysT ((a, v) :: appendId r t x) = a :: keysT (appendId r t x) := rfl
      have e3 : keysT ((a, v) :: r) = a :: keysT r := rfl
      rw [e1, e2, e3, ih]
      by_cases hk : t ∈ keysT r
      · rw [if_pos hk, if_pos (List.mem_cons_of_mem a hk)]
      · have hnot : ¬ t ∈ a :: keysT r := by
          intro hcon
          rcases List.mem_cons.mp hcon with h1 | h2
          · exact hat h1.symm
          · exact hk h2
        rw [if_neg hk, if_neg hnot]
        simp

theorem fold_getIds (cs : List Chunk) :
    ∀ (m : List (Str × List Str)) (t : Str),
      getIdsA (cs.foldl (fun m c => appendId m c.section_title c.section_id) m) t
        = getIdsA m t ++ idsOf cs t := by
  induction cs with
  | nil =>
    intro m t
    simp [idsOf]
  | cons c cs' ih =>
    intro m t
    rw [List.foldl_cons, ih]
    rw [appendId_getIds]
    by_cases h : t = c.section_title
    · subst h
      rw [if_pos rfl]
      simp [idsOf, List.filter_cons, List.append_assoc]
    · rw [if_neg h]
      have hb : (c.section_title == t) = false := by
        simp only [beq_eq_false_iff_ne, ne_eq]
        exact fun hh => h hh.symm
      simp [idsOf, List.filter_cons, hb]

theorem dedupFirstF_congr : ∀ (f1 f2 : Nat) (l : List Str), l.length ≤ f1 →
    l.length ≤ f2 → dedupFirstF f1 l = dedupFirstF f2 l := by
  intro f1
  induction f1 with
  | zero =>
    intro f2 l h1 h2
    have : l = [] := List.length_eq_zero.mp (by omega)
    subst this
    cases f2 <;> rfl
  | succ f ih =>
    intro f2 l h1 h2
    cases l with
    | nil => cases f2 <;> rfl
    | cons x xs =>
      cases f2 with
      | zero => simp at h2
      | succ f2' =>
        simp only [dedupFirstF, List.cons.injEq, true_and]
        have hlen : (xs.filter (fun y => !(y == x))).length ≤ xs.length :=
          List.length_filter_le _ _
        simp only [List.length_cons] at h1 h2
        exact ih f2' _ (by omega) (by omega)

theorem dedupFirst_cons (x : Str) (xs : List Str) :
    dedupFirst (x :: xs) = x :: dedupFirst (xs.filter (fun y => !(y == x))) := by
  unfold dedupFirst
  simp only [List.length_cons, dedupFirstF, List.cons.injEq, true_and]
  exact dedupFirstF_congr xs.length _ _ (List.length_filter_le _ _) (le_refl _)

theorem mem_dedupFirst : ∀ (n : Nat) (l : List Str), l.length ≤ n →
    ∀ x, (x ∈ dedupFirst l ↔ x ∈ l) := by
  intro n
  induction n with
  | zero =>
    intro l h x
    have : l = [] := List.length_eq_zero.mp (by omega)
    subst this
    simp [dedupFirst, dedupFirstF]
  | succ n ih =>
    intro l h x
    cases l with
    | nil => simp [dedupFirst, dedupFirstF]
    | cons y ys =>
      rw [dedupFirst_cons]
      have hlen : (ys.filter (fun z => !(z == y))).length ≤ n := by
        have := List.length_filter_le (fun z => !(z == y)) ys
        simp only [List.length_cons] at h
        omega
      constructor
      · intro hx
        rcases List.mem_cons.mp hx with rfl | hx
        · exact List.mem_cons_self _ _
        · have h1 := (ih _ hlen x).mp hx
          have h2 := List.mem_filter.mp h1
          exact List.mem_cons_of_mem _ h2.1
      · intro hx
        rcases List.mem_cons.mp hx with rfl | hx
        · exact List.mem_cons_self _ _
        · by_cases hxy : x = y
          · subst hxy
            exact List.mem_cons_self _ _
          · apply List.mem_cons_of_mem
            apply (ih _ hlen x).mpr
            apply List.mem_filter.mpr
            exact ⟨hx, by simp [hxy]⟩

theorem nodup_dedupFirst : ∀ (n : Nat) (l : List Str), l.length ≤ n →
    (dedupFirst l).Nodup := by
  intro n
  induction n with
  | zero =>
    intro l h
    have : l = [] := List.length_eq_zero.mp (by omega)
    subst this
    simp [dedupFirst, dedupFirstF]
  | succ n ih =>
    intro l h
    cases l with
    | nil => simp [dedupFirst, dedupFirstF]
    | cons y ys =>
      rw [dedupFirst_cons]
      have hlen : (ys.filter (fun z => !(z == y))).length ≤ n := by
        have := List.length_filter_le (fun z => !(z == y)) ys
        simp only [List.length_cons] at h
        omega
      refine List.nodup_cons.mpr ⟨?_, ih _ hlen⟩
      intro hy
      have h1 := (mem_dedupFirst n _ hlen y).mp hy
      have h2 := (List.mem_filter.mp h1).2
      simp at h2

theorem two_le_length_of_two_mem (l : List Str) (a b : Str) (ha : a ∈ l)
    (hb : b ∈ l) (hab : a ≠ b) : 2 ≤ l.length := by
  cases l with
  | nil => simp at ha
  | cons x xs =>
    cases xs with
    | nil =>
      simp only [List.mem_singleton] at ha hb
      exact absurd (ha.trans hb.symm) hab
    | cons y ys =>
      simp only [List.length_cons]
      omega

theorem dedup_length_two (l : List Str) (h : 2 ≤ (dedupFirst l).length) :
    ∃ a, a ∈ l ∧ ∃ b, b ∈ l ∧ a ≠ b := by
  rcases hdl : dedupFirst l with _ | ⟨x, _ | ⟨y, t⟩⟩
  · rw [hdl] at h
    simp at h
  · rw [hdl] at h
    simp at h
  · have hnd : (dedupFirst l).Nodup := nodup_dedupFirst l.length l (le_refl _)
    rw [hdl] at hnd
    have hxny : x ≠ y := by
      intro hh
      exact (List.nodup_cons.mp hnd).1 (hh ▸ List.mem_cons_self y t)
    have hx : x ∈ l := (mem_dedupFirst l.length l (le_refl _) x).mp (by rw [hdl]; simp)
    have hy : y ∈ l := (mem_dedupFirst l.length l (le_refl _) y).mp (by rw [hdl]; simp)
    exact ⟨x, hx, y, hy, hxny⟩

theorem fold_keys (cs : List Chunk) :
    ∀ (m : List (Str × List Str)),
      keysT (cs.foldl (fun m c => appendId m c.section_title c.section_id) m)
        = keysT m ++ dedupFirst ((cs.map (fun c => c.section_title)).filter
            (fun t => !(decide (t ∈ keysT m)))) := by
  induction cs with
  | nil =>
    intro m
    simp [dedupFirst, dedupFirstF]
  | cons c cs' ih =>
    intro m
    rw [List.foldl_cons, ih, appendId_keys]
    by_cases hmem : c.section_title ∈ keysT m
    · rw [if_pos hmem]
      have hc : (!(decide (c.section_title ∈ keysT m))) = false := by simp [hmem]
      simp only [List.map_cons, List.filter_cons, hc, Bool.false_eq_true, if_false]
    · rw [if_neg hmem]
      have hc : (!(decide (c.section_title ∈ keysT m))) = true := by simp [hmem]
      simp only [List.map_cons, List.filter_cons, hc, if_true]
      rw [dedupFirst_cons, List.filter_filter]
      have hfc : ((cs'.map (fun c => c.section_title)).filter
            (fun t => !(decide (t ∈ keysT m ++ [c.section_title]))))
          = ((cs'.map (fun c => c.section_title)).filter
            (fun t => (!(t == c.section_title)) && (!(decide (t ∈ keysT m))))) := by
        apply List.filter_congr
        intro t ht
        by_cases h1 : t ∈ keysT m
        · simp [h1, List.mem_append]
        · by_cases h2 : t = c.section_title
          · simp [h1, h2, List.mem_append]
          · simp [h1, h2, List.mem_append]
      rw [hfc]
      simp [List.append_assoc]

theorem mem_keysT (m : List (Str × List Str)) (t : Str) :
    t ∈ keysT m ↔ ∃ v, (t, v) ∈ m := by
  unfold keysT
  rw [List.mem_map]
  constructor
  · rintro ⟨p, hp, rfl⟩
    exact ⟨p.2, by simpa using hp⟩
  · rintro ⟨v, hv⟩
    exact ⟨(t, v), hv, rfl⟩

theorem assoc_val (t : Str) (v : List Str) :
    ∀ (m : List (Str × List Str)), (keysT m).Nodup → (t, v) ∈ m →
      v = getIdsA m t := by
  intro m
  induction m with
  | nil =>
    intro _ hv
    simp at hv
  | cons p r ih =>
    intro hnd hv
    obtain ⟨a, w⟩ := p
    have hnd2 : a ∉ keysT r ∧ (keysT r).Nodup := by
      have := List.nodup_cons.mp hnd
      exact ⟨this.1, this.2⟩
    rcases List.mem_cons.mp hv with heq | hmem
    · rw [Prod.mk.injEq] at heq
      have hg : getIdsA ((a, w) :: r) t = w := by
        simp [getIdsA, heq.1]
      rw [hg]
      exact heq.2
    · have hta : ¬ (a = t) := by
        intro hh
        apply hnd2.1
        subst hh
        exact (mem_keysT r a).mpr ⟨v, hmem⟩
      simp only [getIdsA, if_neg hta]
      exact ih hnd2.2 hmem

theorem mem_idsOf (chunks : List Chunk) (t x : Str) :
    x ∈ idsOf chunks t
      ↔ ∃ c, c ∈ chunks ∧ c.section_title = t ∧ c.section_id = x := by
  unfold idsOf
  rw [List.mem_map]
  constructor
  · rintro ⟨c, hc, rfl⟩
    have h1 := List.mem_filter.mp hc
    exact ⟨c, h1.1, by simpa using h1.2, rfl⟩
  · rintro ⟨c, hc, ht, hx⟩
    exact ⟨c, List.mem_filter.mpr ⟨hc, by simp [ht]⟩, hx⟩

/-- C8: `check_duplicates` reports a `section_title` as duplicated
exactly when two chunks carry that title with distinct `section_id`s —
a title whose chunks all share one id is never reported — and each
reported title carries exactly the distinct ids seen under it (without
repetitions); `has_duplicates` is true iff some entry is reported,
`total_chunks` counts all input chunks and `unique_titles` counts the
distinct titles.  (The report is pure: the input chunk list is a value
of the embedding, neither mutated nor filtered.) -/
theorem check_duplicates_spec (chunks : List Chunk) :
    (∀ t ids, (t, ids) ∈ (check_duplicates chunks).duplicates →
        (∀ x, (x ∈ ids ↔ ∃ c, c ∈ chunks ∧ c.section_title = t ∧ c.section_id = x))
        ∧ ids.Nodup ∧ 2 ≤ ids.length)
    ∧ (∀ t, (∃ ids, (t, ids) ∈ (check_duplicates chunks).duplicates) ↔
        (∃ c1, c1 ∈ chunks ∧ ∃ c2, c2 ∈ chunks ∧ c1.section_title = t
          ∧ c2.section_title = t ∧ c1.section_id ≠ c2.section_id))
    ∧ ((check_duplicates chunks).has_duplicates = true ↔
        ∃ t ids, (t, ids) ∈ (check_duplicates chunks).duplicates)
    ∧ (check_duplicates chunks).total_chunks = chunks.length
    ∧ (check_duplicates chunks).unique_titles
        = (dedupFirst (chunks.map (fun c => c.section_title))).length := by
  have hkeys : keysT (title_to_ids chunks)
      = dedupFirst (chunks.map (fun c => c.section_title)) := by
    unfold title_to_ids
    rw [fold_keys]
    simp [keysT]
  have hknd : (keysT (title_to_ids chunks)).Nodup := by
    rw [hkeys]
    exact nodup_dedupFirst _ _ (le_refl _)
  have hvals : ∀ t v, (t, v) ∈ title_to_ids chunks → v = idsOf chunks t := by
    intro t v hv
    have h1 := assoc_val t v (title_to_ids chunks) hknd hv
    rw [h1]
    unfold title_to_ids
    rw [fold_getIds]
    simp [getIdsA]
  have hdups : (check_duplicates chunks).duplicates
      = (title_to_ids chunks).filterMap (fun p =>
          if 2 ≤ (dedupFirst p.2).length then some (p.1, dedupFirst p.2)
          else none) := rfl
  have hextract : ∀ t ids, (t, ids) ∈ (check_duplicates chunks).duplicates →
      ids = dedupFirst (idsOf chunks t) ∧ 2 ≤ ids.length := by
    intro t ids hmem
    rw [hdups] at hmem
    obtain ⟨p, hp, hfp⟩ := List.mem_filterMap.mp hmem
    obtain ⟨p1, p2⟩ := p
    by_cases h2 : 2 ≤ (dedupFirst p2).length
    · rw [if_pos h2] at hfp
      have hfp2 := Option.some.inj hfp
      rw [Prod.mk.injEq] at hfp2
      obtain ⟨ht, hids⟩ := hfp2
      subst ht
      subst hids
      have hv := hvals p1 p2 hp
      rw [hv]
      exact ⟨rfl, by rw [← hv]; exact h2⟩
    · rw [if_neg h2] at hfp
      exact absurd hfp (by simp)
  refine ⟨?_, ?_, ?_, rfl, ?_⟩
  · intro t ids hmem
    obtain ⟨hids, h2⟩ := hextract t ids hmem
    refine ⟨?_, ?_, h2⟩
    · intro x
      rw [hids]
      exact Iff.trans (mem_dedupFirst (idsOf chunks t).length _ (le_refl _) x)
        (mem_idsOf chunks t x)
    · rw [hids]
      exact nodup_dedupFirst (idsOf chunks t).length _ (le_refl _)
  · intro t
    constructor
    · rintro ⟨ids, hmem⟩
      obtain ⟨hids, h2⟩ := hextract t ids hmem
      rw [hids] at h2
      obtain ⟨a, ha, b, hb, hab⟩ := dedup_length_two _ h2
      obtain ⟨c1, hc1, ht1, hx1⟩ := (mem_idsOf chunks t a).mp ha
      obtain ⟨c2, hc2, ht2, hx2⟩ := (mem_idsOf chunks t b).mp hb
      exact ⟨c1, hc1, c2, hc2, ht1, ht2, by rw [hx1, hx2]; exact hab⟩
    · rintro ⟨c1, hc1, c2, hc2, ht1, ht2, hne⟩
      have hkmem : t ∈ keysT (title_to_ids chunks) := by
        rw [hkeys]
        apply (mem_dedupFirst (chunks.map (fun c => c.section_title)).length _
          (le_refl _) t).mpr
        rw [List.mem_map]
        exact ⟨c1, hc1, ht1⟩
      obtain ⟨v, hv⟩ := (mem_keysT _ t).mp hkmem
      have hveq := hvals t v hv
      have ha : c1.section_id ∈ v := by
        rw [hveq]
        exact (mem_idsOf chunks t _).mpr ⟨c1, hc1, ht1, rfl⟩
      have hb : c2.section_id ∈ v := by
        rw [hveq]
        exact (mem_idsOf chunks t _).mpr ⟨c2, hc2, ht2, rfl⟩
      have h2 : 2 ≤ (dedupFirst v).length := by
        apply two_le_length_of_two_mem _ c1.section_id c2.section_id
        · exact (mem_dedupFirst v.length v (le_refl _) _).mpr ha
        · exact (mem_dedupFirst v.length v (le_refl _) _).mpr hb
        · exact hne
      refine ⟨dedupFirst v, ?_⟩
      rw [hdups]
      apply List.mem_filterMap.mpr
      exact ⟨(t, v), hv, by rw [if_pos h2]⟩
  · have hhd : (check_duplicates chunks).has_duplicates
        = !(check_duplicates chunks).duplicates.isEmpty := rfl
    rw [hhd]
    rcases hl : (check_duplicates chunks).duplicates with _ | ⟨p, ps⟩
    · simp
    · simp only [List.isEmpty_cons, Bool.not_false, true_iff]
      exact ⟨p.1, p.2, List.mem_cons_self _ _⟩
  · have h1 : (check_duplicates chunks).unique_titles
        = (title_to_ids chunks).length := rfl
    have h2 : (title_to_ids chunks).length
        = (keysT (title_to_ids chunks)).length := by
      simp [keysT]
    rw [h1, h2, hkeys]

theorem check_duplicates_spec_wit :
    ((['1'] : Str) ∈ dedupFirst [['1'], ['2']])
    ∧ (dedupFirst [['1'], ['2']]).Nodup
    ∧ (check_duplicates
        [⟨['1', '_', '0'], ['1'], ['T'], ['a'], []⟩,
         ⟨['2', '_', '0'], ['2'], ['T'], ['b'], []⟩]).total_chunks = 2 := by
  have h := check_duplicates_spec
    [⟨['1', '_', '0'], ['1'], ['T'], ['a'], []⟩,
     ⟨['2', '_', '0'], ['2'], ['T'], ['b'], []⟩]
  have h1 := h.1 ['T'] (dedupFirst [['1'], ['2']]) (by decide)
  exact ⟨(h1.1 ['1']).mpr ⟨⟨['1', '_', '0'], ['1'], ['T'], ['a'], []⟩,
      by decide, by decide, by decide⟩,
    h1.2.1, h.2.2.2.1⟩
